import Mathlib

/-!
Shallow embedding of the affiliation-classification and record-filtering
pipeline of the pubmed_pharma_papers package, together with proofs of the
specified properties.

The embedding follows src/pubmed_pharma_papers/company_identifier.py and
src/pubmed_pharma_papers/csv_writer.py.  Python strings are Lean strings,
Python float scores are modelled as exact rationals (all score arithmetic in
the source stays on the handful of constants 0.8, 0.1, 0.2, 0.6, 1.0, 0.5,
and every comparison made by the code has the same outcome on the exact
rational values), Python sets of strings are lists (the code only tests
membership and sorts them, which is order-independent; where iteration order
of a set could matter we prove order-independence), and the per-paper
try/except boundary is modelled by an Option-returning processor.
-/

unseal Rat.add Rat.mul Rat.inv Rat.sub

/-- Lowercasing of a string, character by character (Python str.lower on the
ASCII texts handled here). -/
def lowerStr (s : String) : String :=
  String.mk (s.data.map Char.toLower)

/-- Occurrence of a list as a contiguous sublist, mirroring the Python
substring operator on the underlying character lists. -/
def listContains (haystack needle : List Char) : Bool :=
  haystack.tails.any (fun t => needle.isPrefixOf t)

/-- Python substring test: strContains h n is the Python expression n in h. -/
def strContains (haystack needle : String) : Bool :=
  listContains haystack.data needle.data

/-- Python str.startswith, on the underlying character lists. -/
def strIsPrefix (p s : String) : Bool :=
  p.data.isPrefixOf s.data

/-- Python len of a string: its number of characters. -/
def strLength (s : String) : Nat :=
  s.data.length

/-- Python str.title on a character list: a letter is uppercased when the
previous character is not a letter, lowercased otherwise; the boolean carries
whether the previous character was a letter. -/
def titleAux : List Char → Bool → List Char
  | [], _ => []
  | c :: r, prevAlpha =>
    (if c.isAlpha then (if prevAlpha then c.toLower else c.toUpper) else c)
      :: titleAux r c.isAlpha

/-- Python str.title. -/
def title_case (s : String) : String :=
  String.mk (titleAux s.data false)

/-- Known pharmaceutical, biotech, generic-pharma and CRO names, from
CompanyIdentifier._load_pharma_companies (already lowercase in the source,
so the final lowercasing pass there is the identity). -/
def pharma_companies : List String :=
  [ "pfizer", "johnson & johnson", "j&j", "roche", "novartis", "merck",
    "sanofi", "glaxosmithkline", "gsk", "astrazeneca", "bristol myers squibb",
    "bms", "abbott", "eli lilly", "lilly", "amgen", "gilead", "biogen",
    "celgene", "regeneron", "vertex", "moderna", "biontech", "illumina",
    "thermo fisher", "agilent", "waters", "perkinelmer", "danaher",
    "becton dickinson", "bd", "medtronic", "boston scientific",
    "edwards lifesciences", "intuitive surgical", "stryker",
    "genentech", "immunogen", "seattle genetics", "seagen", "bluebird bio",
    "crispr therapeutics", "editas medicine", "intellia therapeutics",
    "sangamo therapeutics", "alnylam", "ionis pharmaceuticals",
    "antisense therapeutics", "wave life sciences", "sarepta therapeutics",
    "biomarin", "alexion", "ultragenyx", "horizon therapeutics",
    "jazz pharmaceuticals", "neurocrine biosciences", "sage therapeutics",
    "karuna therapeutics", "compass pathways", "mindmed",
    "teva", "mylan", "viatris", "sandoz", "hikma", "sun pharma",
    "dr reddy", "lupin", "cipla", "aurobindo", "zydus cadila",
    "torrent pharmaceuticals", "glenmark", "alkem laboratories",
    "quintiles", "iqvia", "covance", "parexel", "pra health sciences",
    "syneos health", "icon", "ppd", "charles river laboratories",
    "wuxi apptec", "catalent", "lonza", "samsung biologics",
    "boehringer ingelheim", "fujifilm diosynth", "patheon" ]

/-- Keywords indicating biotech/pharma companies, from
CompanyIdentifier._load_biotech_keywords. -/
def biotech_keywords : List String :=
  [ "pharmaceuticals", "pharma", "therapeutics", "biosciences",
    "biotechnology", "biotech", "biopharma", "biopharmaceuticals",
    "medicines", "drugs", "inc.", "corp.", "corporation", "ltd.",
    "limited", "company", "co.", "laboratories", "labs", "research",
    "development", "clinical", "trials", "cro", "contract research" ]

/-- Keywords indicating academic institutions, from
CompanyIdentifier._load_academic_keywords. -/
def academic_keywords : List String :=
  [ "university", "college", "school", "institute", "institution",
    "hospital", "medical center", "health system", "clinic",
    "department", "faculty", "division", "center for", "centre for",
    "national institutes", "nih", "nsf", "government", "public health",
    "ministry of health", "veterans affairs", "va medical" ]

/-- CompanyIdentifier.is_non_academic_affiliation: academic-keyword veto,
then industry keywords, then known companies, then the corporate-email
heuristic. -/
def is_non_academic_affiliation (affiliation : String) : Bool :=
  if affiliation.data.isEmpty then false
  else
    let affiliation_lower := lowerStr affiliation
    if academic_keywords.any (fun k => strContains affiliation_lower k) then
      false
    else if biotech_keywords.any (fun k => strContains affiliation_lower k) then
      true
    else if pharma_companies.any (fun c => strContains affiliation_lower c) then
      true
    else if strContains affiliation "@"
        && !(([".edu", ".ac.", ".gov"] : List String).any
              (fun d => strContains (lowerStr affiliation) d)) then
      true
    else
      false

/-- A matched company in an affiliation, from the CompanyMatch dataclass.
Confidence is an exact rational. -/
structure CompanyMatch where
  company_name : String
  confidence : ℚ
  match_type : String
deriving DecidableEq, Repr

/-- Python min on two rationals. -/
def ratMin (a b : ℚ) : ℚ :=
  if a ≤ b then a else b

/-- Python max on two rationals. -/
def ratMax (a b : ℚ) : ℚ :=
  if a ≤ b then b else a

/-- CompanyIdentifier._calculate_confidence: base 0.8, +0.1 for names longer
than 10 characters, +0.1 when the (lowercased) affiliation starts with the
company name, -0.2 once if any academic keyword occurs, clamped to
[0.1, 1.0]. -/
def calculate_confidence (affiliation company : String) : ℚ :=
  let base0 : ℚ := 8/10
  let base1 := if 10 < strLength company then base0 + 1/10 else base0
  let base2 := if strIsPrefix company affiliation then base1 + 1/10 else base1
  let base3 :=
    if academic_keywords.any (fun k => strContains affiliation k) then base2 - 2/10
    else base2
  ratMin 1 (ratMax (1/10) base3)

/-- Word character of the regex class backslash-w on the ASCII texts handled
here: letters, digits, underscore. -/
def isWordChar (c : Char) : Bool :=
  c.isAlphanum || c == '_'

/-- Whitespace character of the regex class backslash-s (ASCII). -/
def isSpaceChar (c : Char) : Bool :=
  c == ' ' || c == '\t' || c == '\n' || c == '\r' || c == '\x0b' || c == '\x0c'

/-- The alternation of the keyword pattern, in the priority order of the
source regex. -/
def pattern_keywords : List String :=
  ["pharmaceuticals", "pharma", "therapeutics", "biotech", "biosciences"]

/-- Try the keyword alternation as a literal at the head of the text,
keywords in priority order; returns consumed characters and the rest. -/
def tryKeywords (t : List Char) : Option (List Char × List Char) :=
  pattern_keywords.findSome? fun k =>
    if k.data.isPrefixOf t then some (k.data, t.drop k.data.length) else none

/-- The part of the keyword regex after the leading word run: the greedy loop
of (whitespace-run, word-run) pairs followed by a whitespace run and a
keyword.  Mirrors backtracking priority: more loop iterations are preferred;
on failure the loop gives an iteration back and the keyword is tried at the
current word.  Fuel bounds the recursion by the text length. -/
def matchTail : Nat → List Char → Option (List Char × List Char)
  | 0, _ => none
  | fuel + 1, t =>
    let s := t.takeWhile isSpaceChar
    let r1 := t.dropWhile isSpaceChar
    if s.isEmpty then none
    else
      let w := r1.takeWhile isWordChar
      let r2 := r1.dropWhile isWordChar
      match (if w.isEmpty then none else matchTail fuel r2) with
      | some p => some (s ++ w ++ p.1, p.2)
      | none =>
        match tryKeywords r1 with
        | some p => some (s ++ p.1, p.2)
        | none => none

/-- Attempt of the whole keyword regex anchored at the current position:
a leading word run, then matchTail. -/
def matchAt (t : List Char) : Option (List Char × List Char) :=
  let w0 := t.takeWhile isWordChar
  let r := t.dropWhile isWordChar
  if w0.isEmpty then none
  else
    match matchTail r.length r with
    | some p => some (w0 ++ p.1, p.2)
    | none => none

/-- re.finditer scan: try the pattern at every position left to right and
continue after the end of each (non-overlapping) match. -/
def scanMatches : Nat → List Char → List (List Char)
  | 0, _ => []
  | _, [] => []
  | fuel + 1, c :: rest =>
    match matchAt (c :: rest) with
    | some (g0, after) => g0 :: scanMatches fuel after
    | none => scanMatches fuel rest

/-- CompanyIdentifier._find_keyword_matches: every regex match of the pattern
one-or-more words, whitespace, keyword against the lowercased affiliation is
title-cased and emitted with fixed confidence 0.6 and match type keyword. -/
def find_keyword_matches (affiliation : String) : List CompanyMatch :=
  let al := (lowerStr affiliation).data
  (scanMatches al.length al).map fun g0 =>
    { company_name := title_case (String.mk g0)
      confidence := 3/5
      match_type := "keyword" }

/-- Deduplication key: the case-insensitive company name. -/
def mkey (m : CompanyMatch) : String :=
  lowerStr m.company_name

/-- One step of the deduplicating dictionary insertion of
CompanyIdentifier.identify_companies: a new key is appended, an existing key
is overwritten only by a strictly higher confidence. -/
def insertMatch (acc : List (String × CompanyMatch)) (m : CompanyMatch) :
    List (String × CompanyMatch) :=
  if acc.any (fun p => decide (p.1 = mkey m)) then
    acc.map (fun p =>
      if p.1 = mkey m ∧ p.2.confidence < m.confidence then (p.1, m) else p)
  else acc ++ [(mkey m, m)]

/-- The insertion-ordered dictionary of retained matches, keyed by
case-insensitive name. -/
def dedupMatches (ms : List CompanyMatch) : List CompanyMatch :=
  (ms.foldl insertMatch []).map Prod.snd

/-- Comparator of the final sort: descending confidence. -/
def matchLe (m₁ m₂ : CompanyMatch) : Prop :=
  m₂.confidence ≤ m₁.confidence

instance : DecidableRel matchLe :=
  fun m₁ m₂ => inferInstanceAs (Decidable (m₂.confidence ≤ m₁.confidence))

/-- Deduplicate then sort by descending confidence.  A stable sort, as the
Python sorted with reverse equal true; stable insertion sort produces the
same sequence as any stable sort by the same key. -/
def dedupSortMatches (ms : List CompanyMatch) : List CompanyMatch :=
  List.insertionSort matchLe (dedupMatches ms)
/-- Well-formedness of the deduplication dictionary: distinct keys, and each
key is the normalized name of its match. -/
def goodAcc (acc : List (String × CompanyMatch)) : Prop :=
  (acc.map Prod.fst).Nodup ∧ ∀ q ∈ acc, q.1 = mkey q.2

instance : IsTotal CompanyMatch matchLe :=
  ⟨fun m₁ m₂ => le_total m₂.confidence m₁.confidence⟩

instance : IsTrans CompanyMatch matchLe :=
  ⟨fun _ _ _ h₁ h₂ => le_trans h₂ h₁⟩

/-- The exact pass of CompanyIdentifier.identify_companies: every known
company name found as a substring of the lowercased affiliation, title-cased,
with its computed confidence. -/
def exact_pass (affiliation_lower : String) : List CompanyMatch :=
  pharma_companies.filterMap fun company =>
    if strContains affiliation_lower company then
      some { company_name := title_case company
             confidence := calculate_confidence affiliation_lower company
             match_type := "exact" }
    else none

/-- The raw matches of CompanyIdentifier.identify_companies before
deduplication: the exact pass over the known-company list, and the keyword
pass only when the exact pass is empty. -/
def raw_matches (affiliation : String) : List CompanyMatch :=
  if affiliation.data.isEmpty then []
  else
    let exact := exact_pass (lowerStr affiliation)
    if exact.isEmpty then find_keyword_matches affiliation else exact

/-- CompanyIdentifier.identify_companies. -/
def identify_companies (affiliation : String) : List CompanyMatch :=
  dedupSortMatches (raw_matches affiliation)

/-- CompanyIdentifier.extract_company_names; the default threshold at the
call site in the record filter is 0.5. -/
def extract_company_names (ms : List CompanyMatch) (min_confidence : ℚ) :
    List String :=
  (ms.filter (fun m => decide (min_confidence ≤ m.confidence))).map
    (fun m => m.company_name)

/-- A paper author, from the Author dataclass of pubmed_client.py. -/
structure Author where
  name : String
  affiliation : String
  email : Option String
  is_corresponding : Bool
deriving DecidableEq, Repr

/-- A research paper, from the Paper dataclass of pubmed_client.py. -/
structure Paper where
  pubmed_id : String
  title : String
  publication_date : String
  authors : List Author
  abstract : String
deriving DecidableEq, Repr

/-- An output row, from the PaperRecord dataclass of csv_writer.py. -/
structure PaperRecord where
  pubmed_id : String
  title : String
  publication_date : String
  non_academic_authors : String
  company_affiliations : String
  corresponding_author_email : String
deriving DecidableEq, Repr

/-- Python truthiness of an optional string: present and non-empty. -/
def emailTruthy (e : Option String) : Bool :=
  match e with
  | none => false
  | some s => !s.data.isEmpty

/-- The value of a present email, empty when absent. -/
def emailValue (e : Option String) : String :=
  match e with
  | none => ""
  | some s => s

/-- The loop state of CSVWriter._process_paper: the ordered list of
non-academic author names, the accumulated company-name set (as the list of
insertions; only its sorted deduplication is observed), and the
corresponding email. -/
structure PPState where
  nonAcademicAuthors : List String
  companyAffiliations : List String
  correspondingEmail : String
deriving DecidableEq, Repr

/-- One iteration of the author loop of CSVWriter._process_paper. -/
def processAuthor (st : PPState) (author : Author) : PPState :=
  let st1 :=
    if is_non_academic_affiliation author.affiliation then
      { st with
        nonAcademicAuthors := st.nonAcademicAuthors ++ [author.name]
        companyAffiliations := st.companyAffiliations ++
          extract_company_names (identify_companies author.affiliation) (1/2) }
    else st
  if author.is_corresponding && emailTruthy author.email then
    { st1 with correspondingEmail := emailValue author.email }
  else if emailTruthy author.email && st1.correspondingEmail.data.isEmpty then
    { st1 with correspondingEmail := emailValue author.email }
  else st1

/-- Python sorted over the set of accumulated company names: the
lexicographically sorted list of the distinct names. -/
def sortedCompanySet (names : List String) : List String :=
  List.insertionSort (fun a b => a ≤ b) names.dedup

/-- CSVWriter._process_paper without its try/except boundary (the loop body
is total in this embedding; the boundary is modelled at the aggregator,
see filter_and_convert_core). -/
def process_paper (paper : Paper) : Option PaperRecord :=
  let st := paper.authors.foldl processAuthor ⟨[], [], ""⟩
  if st.nonAcademicAuthors.isEmpty then none
  else some
    { pubmed_id := paper.pubmed_id
      title := paper.title
      publication_date := paper.publication_date
      non_academic_authors := String.intercalate "; " st.nonAcademicAuthors
      company_affiliations :=
        String.intercalate "; " (sortedCompanySet st.companyAffiliations)
      corresponding_author_email := st.correspondingEmail }

/-- CSVWriter.filter_and_convert_papers, generic in the per-paper processor:
the try/except around _process_paper makes the processor fallible, a failure
(or a paper with no non-academic authors) yields none and the loop moves on;
a produced record is kept only when its non_academic_authors string is
truthy (non-empty). -/
def filter_and_convert_core (f : Paper → Option PaperRecord) :
    List Paper → List PaperRecord
  | [] => []
  | paper :: rest =>
    match f paper with
    | some record =>
      if record.non_academic_authors.data.isEmpty then
        filter_and_convert_core f rest
      else record :: filter_and_convert_core f rest
    | none => filter_and_convert_core f rest

/-- CSVWriter.filter_and_convert_papers with the actual per-paper
processor. -/
def filter_and_convert_papers (papers : List Paper) : List PaperRecord :=
  filter_and_convert_core process_paper papers

/-- Claim-side view of the record filter: the names of the non-academic
authors of an author list, in input encounter order. -/
def nonAcademicNames (authors : List Author) : List String :=
  (authors.filter (fun a => is_non_academic_affiliation a.affiliation)).map
    (fun a => a.name)

/-- Claim-side view: all company names extracted (at the default threshold)
from the affiliations of the non-academic authors, in encounter order. -/
def companyNamesOf (authors : List Author) : List String :=
  (authors.filter (fun a => is_non_academic_affiliation a.affiliation)).flatMap
    (fun a => extract_company_names (identify_companies a.affiliation) (1/2))

/-- The email component of one iteration of the author loop. -/
def stepEmail (e : String) (author : Author) : String :=
  if author.is_corresponding && emailTruthy author.email then
    emailValue author.email
  else if emailTruthy author.email && e.data.isEmpty then
    emailValue author.email
  else e

/-- The email accumulator of the author loop, run from a given start state. -/
def emailFoldFrom (e : String) : List Author → String
  | [] => e
  | author :: rest => emailFoldFrom (stepEmail e author) rest

/-- The last author of a list satisfying a predicate, if any. -/
def lastMatching (f : Author → Bool) : List Author → Option Author
  | [] => none
  | author :: rest =>
    match lastMatching f rest with
    | some b => some b
    | none => if f author then some author else none

/-- The first author of a list satisfying a predicate, if any. -/
def firstMatching (f : Author → Bool) : List Author → Option Author
  | [] => none
  | author :: rest => if f author then some author else firstMatching f rest

/-- The corresponding email described by the specification: the email of the
last corresponding author that has one; otherwise the email of the first
author that has one; otherwise empty. -/
def specCorrespondingEmail (authors : List Author) : String :=
  match lastMatching (fun a => a.is_corresponding && emailTruthy a.email) authors,
        firstMatching (fun a => emailTruthy a.email) authors with
  | some a, _ => emailValue a.email
  | none, some a => emailValue a.email
  | none, none => ""

/-- Modelled from the spec: the industry-keyword set exactly as the
specification lists it (Step 2 of the classifier contract); used to compare
the specified classifier with the implemented one. -/
def spec_industry_keywords : List String :=
  [ "pharmaceuticals", "pharma", "therapeutics", "biosciences",
    "biotechnology", "biotech", "biopharma", "medicines", "drugs",
    "inc.", "corp.", "ltd.", "co.", "laboratories", "labs",
    "clinical trials", "cro", "contract research" ]

/-- Modelled from the spec: the classifier result the specification wording
of C3 describes for strings that pass the academic veto: an industry keyword
from the spec list, or a known company, or the email heuristic. -/
def spec_non_academic_rhs (a : String) : Bool :=
  spec_industry_keywords.any (fun k => strContains (lowerStr a) k)
  || pharma_companies.any (fun c => strContains (lowerStr a) c)
  || (strContains a "@"
      && !(([".edu", ".ac.", ".gov"] : List String).any
            (fun d => strContains (lowerStr a) d)))

/-- A paper whose only author has an empty display name and a non-academic
affiliation; input of the C1 counterexample. -/
def c1_paper : Paper :=
  { pubmed_id := "11111"
    title := "Degenerate author name"
    publication_date := "2024-01-02"
    authors := [
      { name := ""
        affiliation := "Pfizer Inc."
        email := none
        is_corresponding := false } ]
    abstract := "" }

/-- The paper of the corresponding-email precedence scenario: a plain email
first, a corresponding email second. -/
def c4_paper : Paper :=
  { pubmed_id := "44444"
    title := "Email precedence"
    publication_date := "2024-02-03"
    authors := [
      { name := "Alice"
        affiliation := "Acme Inc."
        email := some "a@x.com"
        is_corresponding := false },
      { name := "Bob"
        affiliation := "Stanford University"
        email := some "b@y.com"
        is_corresponding := true } ]
    abstract := "" }

/-- The record c4_paper produces. -/
def c4_record : PaperRecord :=
  { pubmed_id := "44444"
    title := "Email precedence"
    publication_date := "2024-02-03"
    non_academic_authors := "Alice"
    company_affiliations := ""
    corresponding_author_email := "b@y.com" }

/-- A paper all of whose authors are academic; input of the C9 witness. -/
def c9_academic_paper : Paper :=
  { pubmed_id := "99990"
    title := "All academic"
    publication_date := "2024-03-04"
    authors := [
      { name := "Carol"
        affiliation := "Dept. of Medicine, Stanford University"
        email := none
        is_corresponding := false } ]
    abstract := "" }

/-- An arbitrary paper used as the failing paper of the C9 witness. -/
def c9_any_paper : Paper :=
  { pubmed_id := "99991"
    title := "Failing paper"
    publication_date := "2024-03-05"
    authors := []
    abstract := "" }

/-- The paper of C10: one author classified non-academic purely by the
email-domain heuristic, whose affiliation yields no company match. -/
def c10_paper : Paper :=
  { pubmed_id := "10101"
    title := "Email heuristic only"
    publication_date := "2024-04-05"
    authors := [
      { name := "Jane"
        affiliation := "jane@acme.com"
        email := none
        is_corresponding := false } ]
    abstract := "" }

/-- The record c10_paper produces. -/
def c10_record : PaperRecord :=
  { pubmed_id := "10101"
    title := "Email heuristic only"
    publication_date := "2024-04-05"
    non_academic_authors := "Jane"
    company_affiliations := ""
    corresponding_author_email := "" }

/-- The single company match of the C7 witness affiliation. -/
def c7_match : CompanyMatch :=
  { company_name := "Pfizer"
    confidence := 9/10
    match_type := "exact" }

/-- Auxiliary: a string with an empty character list is the empty string. -/
theorem eq_empty_of_data_isEmpty {s : String} (h : s.data.isEmpty = true) :
    s = "" := by
  cases s with
  | mk data =>
    cases data with
    | nil => rfl
    | cons c cs => simp [List.isEmpty] at h

/-- C2: any affiliation that case-insensitively contains an academic keyword
is classified academic (the veto fires first), regardless of anything else in
the string. -/
theorem c2_academic_veto (a k : String) (hk : k ∈ academic_keywords)
    (h : strContains (lowerStr a) k = true) :
    is_non_academic_affiliation a = false := by
  unfold is_non_academic_affiliation
  split
  · rfl
  · rw [if_pos (List.any_eq_true.mpr ⟨k, hk, h⟩)]

/-- Witness for C2 at the example of the specification. -/
theorem c2_academic_veto_witness :
    "university" ∈ academic_keywords ∧
    strContains (lowerStr "Department of Oncology, Pfizer Research University Hospital") "university" = true ∧
    is_non_academic_affiliation "Department of Oncology, Pfizer Research University Hospital" = false :=
  ⟨by decide, by decide,
    c2_academic_veto "Department of Oncology, Pfizer Research University Hospital" "university"
      (by decide) (by decide)⟩

/-- C3 counterexample: the affiliation Acme Corporation passes the academic
veto and is classified non-academic by the code (industry keyword
corporation), but the industry-keyword set listed by the specification does
not cover it, so the claimed characterization is false for it. -/
theorem c3_counterexample :
    (academic_keywords.all
      (fun k => !(strContains (lowerStr "Acme Corporation") k))) = true ∧
    is_non_academic_affiliation "Acme Corporation" = true ∧
    spec_non_academic_rhs "Acme Corporation" = false := by
  refine ⟨by decide, by decide, by decide⟩

/-- C3 amended: for affiliations where no academic keyword fires the veto,
the classifier returns true exactly when the lowercased string contains one
of the implemented industry keywords (which additionally include
biopharmaceuticals, corporation, limited, company, research, development,
clinical, trials), or a known company name, or contains an at sign while
containing none of the academic domain markers; otherwise false, and the
empty string maps to false. -/
theorem c3_amended (a : String)
    (hveto : ∀ k ∈ academic_keywords, strContains (lowerStr a) k = false) :
    is_non_academic_affiliation a = true ↔
      ((∃ k ∈ biotech_keywords, strContains (lowerStr a) k = true) ∨
       (∃ c ∈ pharma_companies, strContains (lowerStr a) c = true) ∨
       (strContains a "@" = true ∧
        ∀ d ∈ ([".edu", ".ac.", ".gov"] : List String),
          strContains (lowerStr a) d = false)) := by
  by_cases hemp : a.data.isEmpty = true
  · have ha : a = "" := eq_empty_of_data_isEmpty hemp
    subst ha
    decide
  · unfold is_non_academic_affiliation
    rw [if_neg hemp]
    have hv : (academic_keywords.any fun k => strContains (lowerStr a) k) = false := by
      rw [List.any_eq_false]
      intro k hk
      simp [hveto k hk]
    rw [if_neg (by simp [hv])]
    by_cases hb : (biotech_keywords.any fun k => strContains (lowerStr a) k) = true
    · rw [if_pos hb]
      simp only [true_iff]
      exact Or.inl (List.any_eq_true.mp hb)
    · rw [if_neg hb]
      by_cases hc : (pharma_companies.any fun c => strContains (lowerStr a) c) = true
      · rw [if_pos hc]
        simp only [true_iff]
        exact Or.inr (Or.inl (List.any_eq_true.mp hc))
      · rw [if_neg hc]
        by_cases he : (strContains a "@"
            && !(([".edu", ".ac.", ".gov"] : List String).any
                  (fun d => strContains (lowerStr a) d))) = true
        · rw [if_pos he]
          simp only [true_iff]
          rw [Bool.and_eq_true, Bool.not_eq_true'] at he
          refine Or.inr (Or.inr ⟨he.1, ?_⟩)
          intro d hd
          simpa using List.any_eq_false.mp he.2 d hd
        · rw [if_neg he]
          apply iff_of_false (by simp)
          rintro (⟨k, hk, hkc⟩ | ⟨c, hcm, hcc⟩ | ⟨hat, hdom⟩)
          · exact hb (List.any_eq_true.mpr ⟨k, hk, hkc⟩)
          · exact hc (List.any_eq_true.mpr ⟨c, hcm, hcc⟩)
          · apply he
            rw [Bool.and_eq_true, Bool.not_eq_true']
            refine ⟨hat, List.any_eq_false.mpr (fun d hd => ?_)⟩
            simp [hdom d hd]

/-- Witness for the amended C3. -/
theorem c3_amended_witness :
    (∀ k ∈ academic_keywords, strContains (lowerStr "Vertex, Boston MA") k = false) ∧
    is_non_academic_affiliation "Vertex, Boston MA" = true := by
  refine ⟨by decide, ?_⟩
  exact (c3_amended "Vertex, Boston MA" (by decide)).mpr
    (Or.inr (Or.inl ⟨"vertex", by decide, by decide⟩))

/-- C10: an affiliation can be classified non-academic (here purely via the
email-domain heuristic) while yielding no company match at the default
threshold, producing a record with non-empty authors and empty company
affiliations. -/
theorem c10_nonacademic_without_companies :
    is_non_academic_affiliation "jane@acme.com" = true ∧
    identify_companies "jane@acme.com" = [] ∧
    extract_company_names (identify_companies "jane@acme.com") (1/2) = [] ∧
    filter_and_convert_papers [c10_paper] = [c10_record] ∧
    c10_record.non_academic_authors = "Jane" ∧
    c10_record.company_affiliations = "" := by
  refine ⟨by decide, by decide, by decide, by decide, by decide, by decide⟩

/-- One author-loop iteration, componentwise. -/
theorem processAuthor_eq (st : PPState) (a : Author) :
    processAuthor st a =
      { nonAcademicAuthors := st.nonAcademicAuthors ++
          (if is_non_academic_affiliation a.affiliation then [a.name] else [])
        companyAffiliations := st.companyAffiliations ++
          (if is_non_academic_affiliation a.affiliation then
            extract_company_names (identify_companies a.affiliation) (1/2)
           else [])
        correspondingEmail := stepEmail st.correspondingEmail a } := by
  unfold processAuthor stepEmail
  dsimp only
  split <;> split <;> (try split) <;> simp

/-- The author loop computes, componentwise: appended non-academic names,
appended company names, and the email fold. -/
theorem foldl_processAuthor (authors : List Author) :
    ∀ st : PPState,
      authors.foldl processAuthor st =
        { nonAcademicAuthors := st.nonAcademicAuthors ++ nonAcademicNames authors
          companyAffiliations := st.companyAffiliations ++ companyNamesOf authors
          correspondingEmail := emailFoldFrom st.correspondingEmail authors } := by
  induction authors with
  | nil =>
    intro st
    simp [nonAcademicNames, companyNamesOf, emailFoldFrom]
  | cons a rest ih =>
    intro st
    rw [List.foldl_cons, processAuthor_eq, ih]
    have h1 : nonAcademicNames (a :: rest) =
        (if is_non_academic_affiliation a.affiliation then [a.name] else [])
          ++ nonAcademicNames rest := by
      unfold nonAcademicNames
      rw [List.filter_cons]
      split <;> simp
    have h2 : companyNamesOf (a :: rest) =
        (if is_non_academic_affiliation a.affiliation then
          extract_company_names (identify_companies a.affiliation) (1/2)
         else []) ++ companyNamesOf rest := by
      unfold companyNamesOf
      rw [List.filter_cons]
      split <;> simp
    rw [h1, h2]
    simp [emailFoldFrom, List.append_assoc]

/-- CSVWriter._process_paper characterized: none exactly when no author is
non-academic, otherwise the record assembled from the claim-side views. -/
theorem process_paper_eq (p : Paper) :
    process_paper p =
      if nonAcademicNames p.authors = [] then none
      else some
        { pubmed_id := p.pubmed_id
          title := p.title
          publication_date := p.publication_date
          non_academic_authors := String.intercalate "; " (nonAcademicNames p.authors)
          company_affiliations :=
            String.intercalate "; " (sortedCompanySet (companyNamesOf p.authors))
          corresponding_author_email := emailFoldFrom "" p.authors } := by
  unfold process_paper
  rw [foldl_processAuthor]
  simp [List.isEmpty_iff]

/-- C1 counterexample: a paper with a (single) non-academic author whose
display name is empty produces no record, because the truthiness check on
the joined name string drops it. -/
theorem c1_counterexample :
    (∃ author ∈ c1_paper.authors,
      is_non_academic_affiliation author.affiliation = true) ∧
    filter_and_convert_papers [c1_paper] = [] := by
  refine ⟨by decide, by decide⟩

/-- C1 amended: the record filter is order-preserving and emits exactly one
record for a paper iff the semicolon-join of its non-academic author names is
non-empty (at least one non-academic author, excluding only the degenerate
case of all-empty join); the record joins the non-academic names in encounter
order and the sorted set of extracted company names. -/
theorem c1_amended (papers : List Paper) :
    filter_and_convert_papers papers =
      (papers.filter (fun p =>
        !(String.intercalate "; " (nonAcademicNames p.authors)).data.isEmpty)).map
        (fun p =>
          { pubmed_id := p.pubmed_id
            title := p.title
            publication_date := p.publication_date
            non_academic_authors := String.intercalate "; " (nonAcademicNames p.authors)
            company_affiliations :=
              String.intercalate "; " (sortedCompanySet (companyNamesOf p.authors))
            corresponding_author_email := emailFoldFrom "" p.authors }) := by
  induction papers with
  | nil => rfl
  | cons p rest ih =>
    by_cases hn : nonAcademicNames p.authors = []
    · have hpp : process_paper p = none := by rw [process_paper_eq, if_pos hn]
      have hj : (String.intercalate "; " (nonAcademicNames p.authors)).data.isEmpty = true := by
        rw [hn]; rfl
      simp only [filter_and_convert_papers, filter_and_convert_core, hpp,
        List.filter_cons, hj]
      simpa [filter_and_convert_papers] using ih
    · have hpp : process_paper p = some
          { pubmed_id := p.pubmed_id
            title := p.title
            publication_date := p.publication_date
            non_academic_authors := String.intercalate "; " (nonAcademicNames p.authors)
            company_affiliations :=
              String.intercalate "; " (sortedCompanySet (companyNamesOf p.authors))
            corresponding_author_email := emailFoldFrom "" p.authors } := by
        rw [process_paper_eq, if_neg hn]
      by_cases hj : (String.intercalate "; " (nonAcademicNames p.authors)).data.isEmpty = true
      · simp only [filter_and_convert_papers, filter_and_convert_core, hpp,
          List.filter_cons, hj]
        simpa [filter_and_convert_papers] using ih
      · simp only [filter_and_convert_papers, filter_and_convert_core, hpp,
          List.filter_cons, hj]
        simp only [Bool.not_eq_true] at hj
        simp [hj, filter_and_convert_papers] at ih ⊢
        exact ih

/-- If an email is truthy its value is a non-empty string. -/
theorem emailValue_not_empty {e : Option String} (h : emailTruthy e = true) :
    (emailValue e).data.isEmpty = false := by
  cases e with
  | none => simp [emailTruthy] at h
  | some s =>
    simp only [emailTruthy, Bool.not_eq_true'] at h
    simpa [emailValue] using h

/-- The email fold, characterized: the last corresponding author with an
email wins; otherwise, from an empty start state, the first email found. -/
theorem emailFoldFrom_eq (authors : List Author) : ∀ e : String,
    emailFoldFrom e authors =
      match lastMatching (fun a => a.is_corresponding && emailTruthy a.email) authors with
      | some a => emailValue a.email
      | none =>
        if e.data.isEmpty then
          match firstMatching (fun a => emailTruthy a.email) authors with
          | some a => emailValue a.email
          | none => e
        else e := by
  induction authors with
  | nil =>
    intro e
    simp [emailFoldFrom, lastMatching, firstMatching]
  | cons a rest ih =>
    intro e
    rw [emailFoldFrom, ih (stepEmail e a)]
    by_cases hc : (a.is_corresponding && emailTruthy a.email) = true
    · have ht : emailTruthy a.email = true := by
        simp only [Bool.and_eq_true] at hc
        exact hc.2
      have hv := emailValue_not_empty ht
      have hstep : stepEmail e a = emailValue a.email := by
        unfold stepEmail; rw [if_pos hc]
      rw [hstep]
      cases hlast : lastMatching (fun x => x.is_corresponding && emailTruthy x.email) rest with
      | some b => simp [lastMatching, hlast]
      | none => simp [lastMatching, hlast, hc, hv]
    · by_cases ht : emailTruthy a.email = true
      · have hv := emailValue_not_empty ht
        by_cases hemp : e.data.isEmpty = true
        · have hstep : stepEmail e a = emailValue a.email := by
            unfold stepEmail
            rw [if_neg hc, if_pos (by simp [ht, hemp])]
          rw [hstep]
          cases hlast : lastMatching (fun x => x.is_corresponding && emailTruthy x.email) rest with
          | some b => simp [lastMatching, hlast]
          | none =>
            have hic : a.is_corresponding = false := by
              cases hia : a.is_corresponding
              · rfl
              · exact absurd (by simp [hia, ht]) hc
            simp [lastMatching, hlast, hic, firstMatching, ht, hv, hemp]
        · have hstep : stepEmail e a = e := by
            unfold stepEmail
            rw [if_neg hc, if_neg (by simp [Bool.and_eq_true, hemp])]
          rw [hstep]
          cases hlast : lastMatching (fun x => x.is_corresponding && emailTruthy x.email) rest with
          | some b => simp [lastMatching, hlast]
          | none => simp [lastMatching, hlast, hc, hemp]
      · have hstep : stepEmail e a = e := by
          unfold stepEmail
          rw [if_neg hc, if_neg (by simp [Bool.and_eq_true, ht])]
        rw [hstep]
        cases hlast : lastMatching (fun x => x.is_corresponding && emailTruthy x.email) rest with
        | some b => simp [lastMatching, hlast]
        | none => simp [lastMatching, hlast, hc, firstMatching, ht]

/-- C4: in every record, the corresponding email is that of the last
corresponding author with an email, else the first email in input order,
else empty. -/
theorem c4_corresponding_email (p : Paper) (r : PaperRecord)
    (h : process_paper p = some r) :
    r.corresponding_author_email = specCorrespondingEmail p.authors := by
  rw [process_paper_eq] at h
  by_cases hn : nonAcademicNames p.authors = []
  · rw [if_pos hn] at h
    exact absurd h (by simp)
  · rw [if_neg hn] at h
    injection h with h
    rw [← h]
    unfold specCorrespondingEmail
    rw [emailFoldFrom_eq]
    cases hl : lastMatching (fun a => a.is_corresponding && emailTruthy a.email) p.authors with
    | some b => simp
    | none =>
      cases hf : firstMatching (fun a => emailTruthy a.email) p.authors with
      | some b => simp
      | none => simp

/-- Witness for C4 at the precedence scenario of the specification. -/
theorem c4_corresponding_email_witness :
    process_paper c4_paper = some c4_record ∧
    c4_record.corresponding_author_email = "b@y.com" := by
  have h : process_paper c4_paper = some c4_record := by decide
  refine ⟨h, ?_⟩
  rw [c4_corresponding_email c4_paper c4_record h]
  decide

/-- C9: a failing paper (the processor returns none for it) removes exactly
its own record, the empty input yields the empty output, and papers with only
academic authors yield the empty output. -/
theorem c9_fault_isolation (f : Paper → Option PaperRecord) (xs ys : List Paper)
    (p : Paper) (hf : f p = none) :
    filter_and_convert_core f (xs ++ p :: ys) = filter_and_convert_core f (xs ++ ys) ∧
    filter_and_convert_core f ([] : List Paper) = [] ∧
    (∀ papers : List Paper,
      (∀ q ∈ papers, ∀ author ∈ q.authors,
        is_non_academic_affiliation author.affiliation = false) →
      filter_and_convert_papers papers = []) := by
  refine ⟨?_, rfl, ?_⟩
  · induction xs with
    | nil => simp [filter_and_convert_core, hf]
    | cons x xs ih =>
      simp only [List.cons_append, filter_and_convert_core]
      cases hfx : f x with
      | none => exact ih
      | some r =>
        split <;> simp [ih]
  · intro papers
    induction papers with
    | nil => intro _; rfl
    | cons q rest ih2 =>
      intro hall
      have hq : process_paper q = none := by
        rw [process_paper_eq, if_pos]
        unfold nonAcademicNames
        have : q.authors.filter (fun a => is_non_academic_affiliation a.affiliation) = [] := by
          rw [List.filter_eq_nil_iff]
          intro a ha
          simp [hall q (by simp) a ha]
        rw [this]
        rfl
      simp only [filter_and_convert_papers, filter_and_convert_core, hq]
      exact ih2 (fun q' hq' a ha => hall q' (by simp [hq']) a ha)

/-- Witness for C9. -/
theorem c9_fault_isolation_witness :
    filter_and_convert_core (fun _ => none) ([c9_academic_paper] ++ c9_any_paper :: []) =
      filter_and_convert_core (fun _ => none) ([c9_academic_paper] ++ []) ∧
    filter_and_convert_papers [c9_academic_paper] = [] := by
  have h := c9_fault_isolation (fun _ => none) [c9_academic_paper] [] c9_any_paper rfl
  exact ⟨h.1, h.2.2 [c9_academic_paper] (by decide)⟩


/-- An entry of the dictionary after one insertion came from the dictionary
or is the inserted match under its key. -/
theorem insertMatch_mem (acc : List (String × CompanyMatch)) (m : CompanyMatch) :
    ∀ p ∈ insertMatch acc m, p ∈ acc ∨ p = (mkey m, m) := by
  intro p hp
  unfold insertMatch at hp
  split at hp
  · obtain ⟨q, hq, hgq⟩ := List.mem_map.mp hp
    by_cases hcond : q.1 = mkey m ∧ q.2.confidence < m.confidence
    · rw [if_pos hcond] at hgq
      exact Or.inr (by rw [← hgq, hcond.1])
    · rw [if_neg hcond] at hgq
      exact Or.inl (hgq ▸ hq)
  · rcases List.mem_append.mp hp with h | h
    · exact Or.inl h
    · exact Or.inr (List.mem_singleton.mp h)

/-- Insertion preserves dictionary well-formedness. -/
theorem insertMatch_good (acc : List (String × CompanyMatch)) (m : CompanyMatch)
    (h : goodAcc acc) : goodAcc (insertMatch acc m) := by
  constructor
  · unfold insertMatch
    split
    · rw [List.map_map]
      have : acc.map (Prod.fst ∘ fun p =>
          if p.1 = mkey m ∧ p.2.confidence < m.confidence then (p.1, m) else p) =
          acc.map Prod.fst := by
        apply List.map_congr_left
        intro p _
        by_cases hcond : p.1 = mkey m ∧ p.2.confidence < m.confidence <;>
          simp [hcond]
      rw [this]
      exact h.1
    · rename_i hany
      rw [List.map_append, List.nodup_append]
      refine ⟨h.1, by simp, ?_⟩
      intro x hx
      simp only [List.map_cons, List.map_nil, List.mem_singleton]
      obtain ⟨q, hq, hqx⟩ := List.mem_map.mp hx
      intro hcontr
      have := List.any_eq_false.mp (Bool.not_eq_true _ ▸ hany) q hq
      simp only [decide_eq_true_eq] at this
      exact this (by rw [hqx, hcontr])
  · intro q hq
    rcases insertMatch_mem acc m q hq with hin | heq
    · exact h.2 q hin
    · rw [heq]

/-- Every dictionary entry survives an insertion at its key with a
confidence that does not decrease. -/
theorem insertMatch_persist (acc : List (String × CompanyMatch)) (m : CompanyMatch) :
    ∀ q ∈ acc, ∃ p ∈ insertMatch acc m,
      p.1 = q.1 ∧ q.2.confidence ≤ p.2.confidence := by
  intro q hq
  unfold insertMatch
  split
  · refine ⟨if q.1 = mkey m ∧ q.2.confidence < m.confidence then (q.1, m) else q,
      List.mem_map_of_mem _ hq, ?_⟩
    by_cases hcond : q.1 = mkey m ∧ q.2.confidence < m.confidence
    · rw [if_pos hcond]
      exact ⟨rfl, le_of_lt hcond.2⟩
    · rw [if_neg hcond]
      exact ⟨rfl, le_refl _⟩
  · exact ⟨q, List.mem_append_left _ hq, rfl, le_refl _⟩

/-- After inserting a match, some entry holds its key with at least its
confidence. -/
theorem insertMatch_holds (acc : List (String × CompanyMatch)) (m : CompanyMatch) :
    ∃ p ∈ insertMatch acc m, p.1 = mkey m ∧ m.confidence ≤ p.2.confidence := by
  unfold insertMatch
  split
  · rename_i hany
    obtain ⟨q, hq, hdec⟩ := List.any_eq_true.mp hany
    simp only [decide_eq_true_eq] at hdec
    refine ⟨if q.1 = mkey m ∧ q.2.confidence < m.confidence then (q.1, m) else q,
      List.mem_map_of_mem _ hq, ?_⟩
    by_cases hlt : q.2.confidence < m.confidence
    · rw [if_pos ⟨hdec, hlt⟩]
      exact ⟨hdec, le_refl _⟩
    · rw [if_neg (by intro hcontr; exact hlt hcontr.2)]
      exact ⟨hdec, le_of_not_lt hlt⟩
  · exact ⟨(mkey m, m), List.mem_append_right _ (List.mem_singleton_self _),
      rfl, le_refl _⟩

/-- In a dictionary with distinct keys, an entry is determined by its key. -/
theorem key_unique {l : List (String × CompanyMatch)}
    (h : (l.map Prod.fst).Nodup) :
    ∀ p ∈ l, ∀ p' ∈ l, p.1 = p'.1 → p = p' := by
  induction l with
  | nil => intro p hp; exact absurd hp (List.not_mem_nil p)
  | cons a t ih =>
    intro p hp p' hp' hk
    have hna : a.1 ∉ t.map Prod.fst := (List.nodup_cons.mp h).1
    have hnt : (t.map Prod.fst).Nodup := (List.nodup_cons.mp h).2
    rcases List.mem_cons.mp hp with hpa | hpt
    · rcases List.mem_cons.mp hp' with hpa' | hpt'
      · rw [hpa, hpa']
      · exfalso
        apply hna
        rw [hpa] at hk
        rw [hk]
        exact List.mem_map_of_mem Prod.fst hpt'
    · rcases List.mem_cons.mp hp' with hpa' | hpt'
      · exfalso
        apply hna
        rw [hpa'] at hk
        rw [← hk]
        exact List.mem_map_of_mem Prod.fst hpt
      · exact ih hnt p hpt p' hpt' hk

/-- The dictionary fold preserves well-formedness. -/
theorem foldl_insertMatch_good (ms : List CompanyMatch) :
    ∀ acc, goodAcc acc → goodAcc (ms.foldl insertMatch acc) := by
  induction ms with
  | nil => intro acc h; exact h
  | cons m rest ih =>
    intro acc h
    rw [List.foldl_cons]
    exact ih _ (insertMatch_good acc m h)

/-- Every entry of the folded dictionary comes from the start dictionary or
from the inserted matches, keyed by its normalized name. -/
theorem foldl_insertMatch_mem (ms : List CompanyMatch) :
    ∀ acc, ∀ p ∈ ms.foldl insertMatch acc,
      p ∈ acc ∨ (p.2 ∈ ms ∧ p.1 = mkey p.2) := by
  induction ms with
  | nil => intro acc p hp; exact Or.inl hp
  | cons m rest ih =>
    intro acc p hp
    rw [List.foldl_cons] at hp
    rcases ih _ p hp with hin | ⟨hmem, hkey⟩
    · rcases insertMatch_mem acc m p hin with hacc | heq
      · exact Or.inl hacc
      · refine Or.inr ⟨?_, ?_⟩
        · rw [heq]; exact List.mem_cons_self m rest
        · rw [heq]
    · exact Or.inr ⟨List.mem_cons_of_mem m hmem, hkey⟩

/-- Every start entry persists through the fold at its key with
non-decreasing confidence. -/
theorem foldl_insertMatch_persist (ms : List CompanyMatch) :
    ∀ acc, ∀ q ∈ acc, ∃ p ∈ ms.foldl insertMatch acc,
      p.1 = q.1 ∧ q.2.confidence ≤ p.2.confidence := by
  induction ms with
  | nil => intro acc q hq; exact ⟨q, hq, rfl, le_refl _⟩
  | cons m rest ih =>
    intro acc q hq
    rw [List.foldl_cons]
    obtain ⟨e, he, hek, hec⟩ := insertMatch_persist acc m q hq
    obtain ⟨p, hp, hpk, hpc⟩ := ih _ e he
    exact ⟨p, hp, by rw [hpk, hek], le_trans hec hpc⟩

/-- Every inserted match is represented in the folded dictionary at its
key. -/
theorem foldl_insertMatch_cover (ms : List CompanyMatch) :
    ∀ acc, ∀ m' ∈ ms, ∃ p ∈ ms.foldl insertMatch acc, p.1 = mkey m' := by
  induction ms with
  | nil => intro acc m' hm'; exact absurd hm' (List.not_mem_nil m')
  | cons m rest ih =>
    intro acc m' hm'
    rw [List.foldl_cons]
    rcases List.mem_cons.mp hm' with hm | hm
    · obtain ⟨e, he, hek, _⟩ := insertMatch_holds acc m
      obtain ⟨p, hp, hpk, _⟩ := foldl_insertMatch_persist rest _ e he
      exact ⟨p, hp, by rw [hpk, hek, hm]⟩
    · exact ih _ m' hm

/-- The entry retained for a key dominates the confidence of every inserted
match with that key. -/
theorem foldl_insertMatch_max (ms : List CompanyMatch) :
    ∀ acc, goodAcc acc → ∀ p ∈ ms.foldl insertMatch acc,
      ∀ m' ∈ ms, mkey m' = p.1 → m'.confidence ≤ p.2.confidence := by
  induction ms with
  | nil => intro acc _ p _ m' hm'; exact absurd hm' (List.not_mem_nil m')
  | cons m rest ih =>
    intro acc hacc p hp m' hm' hk
    rw [List.foldl_cons] at hp
    have hacc' : goodAcc (insertMatch acc m) := insertMatch_good acc m hacc
    rcases List.mem_cons.mp hm' with hm | hm
    · obtain ⟨e, he, hek, hec⟩ := insertMatch_holds acc m
      obtain ⟨p', hp', hpk, hpc⟩ := foldl_insertMatch_persist rest _ e he
      have hgood : goodAcc (rest.foldl insertMatch (insertMatch acc m)) :=
        foldl_insertMatch_good rest _ hacc'
      have hpp : p = p' := by
        apply key_unique hgood.1 p hp p' hp'
        rw [hpk, hek, ← hm, hk]
      rw [hpp]
      calc m'.confidence = m.confidence := by rw [hm]
        _ ≤ e.2.confidence := hec
        _ ≤ p'.2.confidence := hpc
    · exact ih _ hacc' p hp m' hm hk

/-- Every retained match is one of the raw matches. -/
theorem dedupMatches_subset (ms : List CompanyMatch) :
    ∀ m ∈ dedupMatches ms, m ∈ ms := by
  intro m hm
  obtain ⟨p, hp, hpm⟩ := List.mem_map.mp hm
  rcases foldl_insertMatch_mem ms [] p hp with hin | ⟨hmem, _⟩
  · exact absurd hin (List.not_mem_nil p)
  · rw [← hpm]; exact hmem

/-- A retained match dominates the confidence of every raw match with its
(case-insensitive) name. -/
theorem dedupMatches_max (ms : List CompanyMatch) :
    ∀ m ∈ dedupMatches ms, ∀ m' ∈ ms,
      mkey m' = mkey m → m'.confidence ≤ m.confidence := by
  intro m hm m' hm' hk
  obtain ⟨p, hp, hpm⟩ := List.mem_map.mp hm
  rcases foldl_insertMatch_mem ms [] p hp with hin | ⟨_, hkey⟩
  · exact absurd hin (List.not_mem_nil p)
  · have := foldl_insertMatch_max ms [] ⟨by simp, by simp⟩ p hp m' hm'
      (by rw [hkey, hpm, hk])
    rw [hpm] at this
    exact this

/-- Every raw match is represented among the retained matches at its key. -/
theorem dedupMatches_cover (ms : List CompanyMatch) :
    ∀ m' ∈ ms, ∃ m ∈ dedupMatches ms, mkey m = mkey m' := by
  intro m' hm'
  obtain ⟨p, hp, hpk⟩ := foldl_insertMatch_cover ms [] m' hm'
  have hgood : goodAcc (ms.foldl insertMatch []) :=
    foldl_insertMatch_good ms [] ⟨by simp, by simp⟩
  refine ⟨p.2, List.mem_map_of_mem Prod.snd hp, ?_⟩
  rw [← hgood.2 p hp, hpk]

/-- The retained matches have pairwise distinct case-insensitive names. -/
theorem dedupMatches_nodup_keys (ms : List CompanyMatch) :
    (dedupMatches ms).Pairwise (fun m₁ m₂ => mkey m₁ ≠ mkey m₂) := by
  have hgood : goodAcc (ms.foldl insertMatch []) :=
    foldl_insertMatch_good ms [] ⟨by simp, by simp⟩
  have hmap : (ms.foldl insertMatch []).map Prod.fst =
      (dedupMatches ms).map mkey := by
    unfold dedupMatches
    rw [List.map_map]
    exact List.map_congr_left (fun p hp => hgood.2 p hp)
  have hnd : ((dedupMatches ms).map mkey).Nodup := by
    rw [← hmap]; exact hgood.1
  exact List.pairwise_map.mp hnd

/-- Membership is unchanged by the final sort. -/
theorem dedupSortMatches_mem (ms : List CompanyMatch) (m : CompanyMatch) :
    m ∈ dedupSortMatches ms ↔ m ∈ dedupMatches ms :=
  (List.perm_insertionSort matchLe (dedupMatches ms)).mem_iff


/-- The final sequence is sorted by descending confidence. -/
theorem dedupSortMatches_sorted (ms : List CompanyMatch) :
    (dedupSortMatches ms).Pairwise (fun m₁ m₂ => m₂.confidence ≤ m₁.confidence) :=
  List.sorted_insertionSort matchLe (dedupMatches ms)

/-- Every exact-pass match is the title-cased entry of a contained known
company with its computed confidence. -/
theorem exact_pass_mem (al : String) (m : CompanyMatch)
    (hm : m ∈ exact_pass al) :
    ∃ c ∈ pharma_companies, strContains al c = true ∧
      m = { company_name := title_case c
            confidence := calculate_confidence al c
            match_type := "exact" } := by
  obtain ⟨c, hc, hcm⟩ := List.mem_filterMap.mp hm
  refine ⟨c, hc, ?_, ?_⟩
  · by_cases hcond : strContains al c = true
    · exact hcond
    · rw [if_neg hcond] at hcm
      exact absurd hcm (by simp)
  · by_cases hcond : strContains al c = true
    · rw [if_pos hcond] at hcm
      exact (Option.some.injEq _ _).mp hcm |>.symm
    · rw [if_neg hcond] at hcm
      exact absurd hcm (by simp)

/-- Every keyword-pass match is keyword-typed with fixed confidence 0.6. -/
theorem find_keyword_matches_mem (a : String) (m : CompanyMatch)
    (hm : m ∈ find_keyword_matches a) :
    m.match_type = "keyword" ∧ m.confidence = 3/5 := by
  obtain ⟨g, _, hgm⟩ := List.mem_map.mp hm
  rw [← hgm]
  exact ⟨rfl, rfl⟩

/-- A raw match comes from the exact pass or from the keyword pass. -/
theorem raw_matches_cases (a : String) (m : CompanyMatch)
    (hm : m ∈ raw_matches a) :
    m ∈ exact_pass (lowerStr a) ∨ m ∈ find_keyword_matches a := by
  unfold raw_matches at hm
  split at hm
  · exact absurd hm (List.not_mem_nil m)
  · dsimp only at hm
    split at hm
    · exact Or.inr hm
    · exact Or.inl hm

/-- When a known company occurs, the raw matches are exactly the exact
pass. -/
theorem raw_matches_of_company (a : String)
    (h : ∃ c ∈ pharma_companies, strContains (lowerStr a) c = true) :
    raw_matches a = exact_pass (lowerStr a) := by
  obtain ⟨c, hc, hcont⟩ := h
  have hmem : ({ company_name := title_case c
                 confidence := calculate_confidence (lowerStr a) c
                 match_type := "exact" } : CompanyMatch) ∈ exact_pass (lowerStr a) := by
    apply List.mem_filterMap.mpr
    exact ⟨c, hc, by rw [if_pos hcont]⟩
  have hne : (exact_pass (lowerStr a)).isEmpty = false := by
    cases hep : exact_pass (lowerStr a) with
    | nil => rw [hep] at hmem; exact absurd hmem (List.not_mem_nil _)
    | cons x xs => rfl
  have hae : a.data.isEmpty = false := by
    cases had : a.data with
    | nil =>
      exfalso
      have : (lowerStr a).data = [] := by simp [lowerStr, had]
      rw [strContains, this] at hcont
      have hall : ∀ x ∈ pharma_companies, x.data ≠ [] := by decide
      have hc_ne : c.data ≠ [] := hall c hc
      unfold listContains at hcont
      simp only [List.tails] at hcont
      cases hcd : c.data with
      | nil => exact hc_ne hcd
      | cons ch ct =>
        rw [hcd] at hcont
        simp [List.isPrefixOf] at hcont
    | cons ch ct => rfl
  unfold raw_matches
  rw [if_neg (by simp [hae])]
  dsimp only
  rw [if_neg (by simp [hne])]

/-- When no known company occurs, the raw matches are exactly the keyword
pass. -/
theorem raw_matches_of_no_company (a : String)
    (h : ¬ ∃ c ∈ pharma_companies, strContains (lowerStr a) c = true) :
    raw_matches a = find_keyword_matches a := by
  have hep : exact_pass (lowerStr a) = [] := by
    cases hx : exact_pass (lowerStr a) with
    | nil => rfl
    | cons m rest =>
      exfalso
      have hm : m ∈ exact_pass (lowerStr a) := by rw [hx]; exact List.mem_cons_self m rest
      obtain ⟨c, hc, hcont, _⟩ := exact_pass_mem (lowerStr a) m hm
      exact h ⟨c, hc, hcont⟩
  unfold raw_matches
  split
  · rename_i hae
    have ha : a = "" := eq_empty_of_data_isEmpty hae
    subst ha
    rfl
  · dsimp only
    rw [hep]
    rfl

/-- C5: if some known company occurs in the affiliation, every returned
match is exact; only when none occurs do the returned matches come from the
keyword pattern, each with match type keyword and confidence exactly 0.6. -/
theorem c5_keyword_fallback (a : String) :
    ((∃ c ∈ pharma_companies, strContains (lowerStr a) c = true) →
      ∀ m ∈ identify_companies a, m.match_type = "exact") ∧
    ((¬ ∃ c ∈ pharma_companies, strContains (lowerStr a) c = true) →
      ∀ m ∈ identify_companies a,
        m ∈ find_keyword_matches a ∧ m.match_type = "keyword" ∧
          m.confidence = 3/5) := by
  constructor
  · intro h m hm
    have hmr : m ∈ raw_matches a :=
      dedupMatches_subset _ m ((dedupSortMatches_mem _ m).mp hm)
    rw [raw_matches_of_company a h] at hmr
    obtain ⟨c, _, _, heq⟩ := exact_pass_mem (lowerStr a) m hmr
    rw [heq]
  · intro h m hm
    have hmr : m ∈ raw_matches a :=
      dedupMatches_subset _ m ((dedupSortMatches_mem _ m).mp hm)
    rw [raw_matches_of_no_company a h] at hmr
    obtain ⟨ht, hc⟩ := find_keyword_matches_mem a m hmr
    exact ⟨hmr, ht, hc⟩

/-- Witness for C5: a listed company yields only exact matches; an unlisted
Therapeutics phrase yields a keyword match at confidence 0.6. -/
theorem c5_keyword_fallback_witness :
    (CompanyMatch.mk "Pfizer" (9/10) "exact").match_type = "exact" ∧
    ((CompanyMatch.mk "Acme Therapeutics" (3/5) "keyword")
        ∈ find_keyword_matches "Acme Therapeutics, Boston" ∧
      (CompanyMatch.mk "Acme Therapeutics" (3/5) "keyword").match_type = "keyword" ∧
      (CompanyMatch.mk "Acme Therapeutics" (3/5) "keyword").confidence = 3/5) := by
  constructor
  · exact (c5_keyword_fallback "Pfizer Inc., New York").1
      ⟨"pfizer", by decide, by decide⟩ _ (by decide)
  · exact (c5_keyword_fallback "Acme Therapeutics, Boston").2
      (by decide) _ (by decide)

/-- The sequential confidence computation equals the additive formula of the
specification. -/
theorem calculate_confidence_formula (al c : String) :
    calculate_confidence al c =
      ratMin 1 (ratMax (1/10)
        ((8/10 : ℚ) + (if 10 < strLength c then 1/10 else 0)
          + (if strIsPrefix c al = true then 1/10 else 0)
          - (if ∃ k ∈ academic_keywords, strContains al k = true
             then 2/10 else 0))) := by
  unfold calculate_confidence
  dsimp only
  by_cases h1 : 10 < strLength c <;>
    by_cases h2 : strIsPrefix c al = true <;>
      by_cases h3 : ∃ k ∈ academic_keywords, strContains al k = true <;>
        simp [List.any_eq_true, h1, h2, h3, add_zero, sub_zero]

/-- The clamp keeps every computed confidence within [0.1, 1]. -/
theorem calculate_confidence_bounds (al c : String) :
    (1:ℚ)/10 ≤ calculate_confidence al c ∧ calculate_confidence al c ≤ 1 := by
  unfold calculate_confidence ratMin ratMax
  dsimp only
  constructor <;> split_ifs <;> linarith

/-- Every exact-match confidence is at least 0.6. -/
theorem calculate_confidence_ge (al c : String) :
    (3:ℚ)/5 ≤ calculate_confidence al c := by
  unfold calculate_confidence ratMin ratMax
  dsimp only
  split_ifs <;> linarith

/-- C7: every match returned by identify_companies has confidence within
[0.1, 1.0], and every exact match carries the additive confidence formula of
the specification, clamped. -/
theorem c7_confidence_bounds (a : String) : ∀ m ∈ identify_companies a,
    ((1:ℚ)/10 ≤ m.confidence ∧ m.confidence ≤ 1) ∧
    (m.match_type = "exact" →
      ∃ c ∈ pharma_companies, strContains (lowerStr a) c = true ∧
        m.company_name = title_case c ∧
        m.confidence = ratMin 1 (ratMax (1/10)
          ((8/10 : ℚ) + (if 10 < strLength c then 1/10 else 0)
            + (if strIsPrefix c (lowerStr a) = true then 1/10 else 0)
            - (if ∃ k ∈ academic_keywords, strContains (lowerStr a) k = true
               then 2/10 else 0)))) := by
  intro m hm
  have hmr : m ∈ raw_matches a :=
    dedupMatches_subset _ m ((dedupSortMatches_mem _ m).mp hm)
  rcases raw_matches_cases a m hmr with hex | hkw
  · obtain ⟨c, hc, hcont, heq⟩ := exact_pass_mem (lowerStr a) m hex
    constructor
    · rw [heq]
      exact calculate_confidence_bounds (lowerStr a) c
    · intro _
      refine ⟨c, hc, hcont, by rw [heq], ?_⟩
      rw [heq]
      exact calculate_confidence_formula (lowerStr a) c
  · obtain ⟨ht, hcf⟩ := find_keyword_matches_mem a m hkw
    constructor
    · rw [hcf]
      norm_num
    · intro hcontr
      rw [ht] at hcontr
      exact absurd hcontr (by decide)

/-- Witness for C7 at a concrete exact match. -/
theorem c7_confidence_bounds_witness :
    ((1:ℚ)/10 ≤ c7_match.confidence ∧ c7_match.confidence ≤ 1) ∧
    (c7_match.match_type = "exact" →
      ∃ c ∈ pharma_companies,
        strContains (lowerStr "Pfizer Inc., New York") c = true ∧
        c7_match.company_name = title_case c ∧
        c7_match.confidence = ratMin 1 (ratMax (1/10)
          ((8/10 : ℚ) + (if 10 < strLength c then 1/10 else 0)
            + (if strIsPrefix c (lowerStr "Pfizer Inc., New York") = true
               then 1/10 else 0)
            - (if ∃ k ∈ academic_keywords,
                  strContains (lowerStr "Pfizer Inc., New York") k = true
               then 2/10 else 0)))) :=
  c7_confidence_bounds "Pfizer Inc., New York" c7_match (by decide)

/-- C8 counterexample: no affiliation and known-company name at all - in
particular none with a short, non-leading company name and an academic
keyword - gives an exact-match confidence below the default threshold 0.5;
the minimum is 0.6. -/
theorem c8_counterexample :
    ¬ ∃ (a c : String), c ∈ pharma_companies ∧ strLength c ≤ 10 ∧
      strIsPrefix c (lowerStr a) = false ∧
      (∃ k ∈ academic_keywords, strContains (lowerStr a) k = true) ∧
      calculate_confidence (lowerStr a) c < 1/2 := by
  rintro ⟨a, c, -, -, -, -, hlt⟩
  have := calculate_confidence_ge (lowerStr a) c
  linarith

/-- C8 amended: every exact-match confidence is at least 0.6, hence at least
the default threshold 0.5, so extract_company_names at the default threshold
never excludes an exact match. -/
theorem c8_amended :
    (∀ al c : String, (1:ℚ)/2 ≤ calculate_confidence al c) ∧
    (∀ a : String, ∀ m ∈ identify_companies a, m.match_type = "exact" →
      m.company_name ∈ extract_company_names (identify_companies a) (1/2)) := by
  constructor
  · intro al c
    have := calculate_confidence_ge al c
    linarith
  · intro a m hm htype
    have hmr : m ∈ raw_matches a :=
      dedupMatches_subset _ m ((dedupSortMatches_mem _ m).mp hm)
    have hconf : (1:ℚ)/2 ≤ m.confidence := by
      rcases raw_matches_cases a m hmr with hex | hkw
      · obtain ⟨c, _, _, heq⟩ := exact_pass_mem (lowerStr a) m hex
        rw [heq]
        have := calculate_confidence_ge (lowerStr a) c
        linarith
      · obtain ⟨_, hcf⟩ := find_keyword_matches_mem a m hkw
        rw [hcf]
        norm_num
    unfold extract_company_names
    refine List.mem_map_of_mem _ (List.mem_filter.mpr ⟨hm, ?_⟩)
    simp only [decide_eq_true_eq]
    exact hconf

/-- Witness for the amended C8. -/
theorem c8_amended_witness :
    (1:ℚ)/2 ≤ calculate_confidence (lowerStr "Moderna, Cambridge") "moderna" ∧
    "Moderna" ∈ extract_company_names (identify_companies "Moderna, Cambridge") (1/2) := by
  constructor
  · exact c8_amended.1 (lowerStr "Moderna, Cambridge") "moderna"
  · have h := c8_amended.2 "Moderna, Cambridge"
      ⟨"Moderna", 9/10, "exact"⟩ (by decide) (by decide)
    exact h

/-- The code point of a character built from a valid code point. -/
theorem char_toNat_ofNat (n : Nat) (h : n.isValidChar) :
    (Char.ofNat n).toNat = n := by
  unfold Char.ofNat
  rw [dif_pos h]
  unfold Char.ofNatAux
  simp [Char.toNat, UInt32.toNat, BitVec.toNat_ofNatLt]

/-- Rebuilding a character from its own code point is the identity. -/
theorem char_ofNat_toNat (c : Char) : Char.ofNat c.toNat = c := by
  have hv : c.toNat.isValidChar := c.valid
  unfold Char.ofNat
  rw [dif_pos hv]
  unfold Char.ofNatAux
  apply Char.ext
  apply UInt32.ext
  simp [Char.toNat, UInt32.toNat, BitVec.toNat_ofNatLt]

/-- ASCII lowercasing is idempotent. -/
theorem char_toLower_toLower (c : Char) : c.toLower.toLower = c.toLower := by
  unfold Char.toLower
  dsimp only
  by_cases h : c.toNat ≥ 65 ∧ c.toNat ≤ 90
  · rw [if_pos h]
    have hv : (c.toNat + 32).isValidChar := by
      left
      omega
    rw [char_toNat_ofNat _ hv]
    rw [if_neg (by omega)]
  · rw [if_neg h, if_neg h]

/-- Lowercasing after uppercasing is plain lowercasing. -/
theorem char_toLower_toUpper (c : Char) : c.toUpper.toLower = c.toLower := by
  unfold Char.toUpper Char.toLower
  dsimp only
  by_cases h : c.toNat ≥ 97 ∧ c.toNat ≤ 122
  · rw [if_pos h]
    have hv : (c.toNat - 32).isValidChar := by
      left
      omega
    rw [char_toNat_ofNat _ hv]
    rw [if_pos (by omega)]
    rw [if_neg (by omega)]
    have harith : c.toNat - 32 + 32 = c.toNat := by omega
    rw [harith, char_ofNat_toNat]
  · rw [if_neg h]

/-- Title-casing followed by lowercasing restores a string whose characters
are fixed by lowercasing. -/
theorem titleAux_map_toLower (g : List Char) : ∀ b : Bool,
    (∀ ch ∈ g, ch.toLower = ch) →
    (titleAux g b).map Char.toLower = g := by
  induction g with
  | nil => intro b _; rfl
  | cons c r ih =>
    intro b hfix
    have hc : c.toLower = c := hfix c (List.mem_cons_self c r)
    simp only [titleAux, List.map_cons]
    congr 1
    · by_cases ha : c.isAlpha = true
      · rw [if_pos ha]
        cases b with
        | true => rw [if_pos rfl, char_toLower_toLower, hc]
        | false => rw [if_neg (by simp), char_toLower_toUpper, hc]
      · rw [if_neg ha, hc]
    · exact ih c.isAlpha (fun ch hch => hfix ch (List.mem_cons_of_mem c hch))

/-- lowerStr inverts title_case on lowercase-fixed character lists. -/
theorem lowerStr_title_of_fixed (g : List Char)
    (hfix : ∀ ch ∈ g, ch.toLower = ch) :
    lowerStr (title_case (String.mk g)) = String.mk g := by
  unfold lowerStr title_case
  congr 1
  exact titleAux_map_toLower g false hfix

/-- Every character of a lowercased string is fixed by lowercasing. -/
theorem lowerStr_fixed (s : String) : ∀ ch ∈ (lowerStr s).data, ch.toLower = ch := by
  intro ch hch
  unfold lowerStr at hch
  obtain ⟨x, _, hx⟩ := List.mem_map.mp hch
  rw [← hx]
  exact char_toLower_toLower x

/-- The keyword alternation consumes lowercase-fixed characters and leaves a
lowercase-fixed remainder. -/
theorem tryKeywords_chars (t g rest : List Char)
    (h : tryKeywords t = some (g, rest)) (hT : ∀ ch ∈ t, ch.toLower = ch) :
    (∀ ch ∈ g, ch.toLower = ch) ∧ (∀ ch ∈ rest, ch.toLower = ch) := by
  unfold tryKeywords at h
  obtain ⟨k, hk, hkeq⟩ := List.exists_of_findSome?_eq_some h
  have hkwfix : ∀ kw ∈ pattern_keywords, ∀ ch ∈ kw.data, ch.toLower = ch := by decide
  by_cases hpre : k.data.isPrefixOf t = true
  · rw [if_pos hpre] at hkeq
    have hg : g = k.data := by
      have := (Prod.mk.injEq _ _ _ _).mp ((Option.some.injEq _ _).mp hkeq)
      exact this.1.symm
    have hrest : rest = t.drop k.data.length := by
      have := (Prod.mk.injEq _ _ _ _).mp ((Option.some.injEq _ _).mp hkeq)
      exact this.2.symm
    constructor
    · rw [hg]
      exact hkwfix k hk
    · rw [hrest]
      intro ch hch
      exact hT ch ((List.drop_sublist _ _).subset hch)
  · rw [if_neg hpre] at hkeq
    exact absurd hkeq (by simp)

/-- The regex tail consumes lowercase-fixed characters and leaves a
lowercase-fixed remainder. -/
theorem matchTail_chars : ∀ (fuel : Nat) (t g rest : List Char),
    matchTail fuel t = some (g, rest) → (∀ ch ∈ t, ch.toLower = ch) →
    (∀ ch ∈ g, ch.toLower = ch) ∧ (∀ ch ∈ rest, ch.toLower = ch) := by
  intro fuel
  induction fuel with
  | zero =>
    intro t g rest h
    exact absurd h (by simp [matchTail])
  | succ fuel ih =>
    intro t g rest h hT
    unfold matchTail at h
    dsimp only at h
    by_cases hs : (t.takeWhile isSpaceChar).isEmpty = true
    · rw [if_pos hs] at h
      exact absurd h (by simp)
    · rw [if_neg hs] at h
      have hsfix : ∀ ch ∈ t.takeWhile isSpaceChar, ch.toLower = ch :=
        fun ch hch => hT ch ((List.takeWhile_sublist _).subset hch)
      have hr1 : ∀ ch ∈ t.dropWhile isSpaceChar, ch.toLower = ch :=
        fun ch hch => hT ch ((List.dropWhile_sublist _).subset hch)
      have hwfix : ∀ ch ∈ (t.dropWhile isSpaceChar).takeWhile isWordChar,
          ch.toLower = ch :=
        fun ch hch => hr1 ch ((List.takeWhile_sublist _).subset hch)
      have hr2 : ∀ ch ∈ (t.dropWhile isSpaceChar).dropWhile isWordChar,
          ch.toLower = ch :=
        fun ch hch => hr1 ch ((List.dropWhile_sublist _).subset hch)
      cases hrec : (if ((t.dropWhile isSpaceChar).takeWhile isWordChar).isEmpty
          then none
          else matchTail fuel ((t.dropWhile isSpaceChar).dropWhile isWordChar)) with
      | some p =>
        rw [hrec] at h
        have hp : matchTail fuel ((t.dropWhile isSpaceChar).dropWhile isWordChar) =
            some p := by
          by_cases hw : ((t.dropWhile isSpaceChar).takeWhile isWordChar).isEmpty = true
          · rw [if_pos hw] at hrec
            exact absurd hrec (by simp)
          · rw [if_neg hw] at hrec
            exact hrec
        obtain ⟨hp1, hp2⟩ := ih _ p.1 p.2 (by rw [hp]) hr2
        have hg : g = t.takeWhile isSpaceChar ++
            ((t.dropWhile isSpaceChar).takeWhile isWordChar ++ p.1) := by
          have := (Prod.mk.injEq _ _ _ _).mp ((Option.some.injEq _ _).mp h)
          rw [← this.1]
          rw [List.append_assoc]
        have hrest : rest = p.2 := by
          have := (Prod.mk.injEq _ _ _ _).mp ((Option.some.injEq _ _).mp h)
          exact this.2.symm
        constructor
        · rw [hg]
          intro ch hch
          rcases List.mem_append.mp hch with hch | hch
          · exact hsfix ch hch
          · rcases List.mem_append.mp hch with hch | hch
            · exact hwfix ch hch
            · exact hp1 ch hch
        · rw [hrest]
          exact hp2
      | none =>
        rw [hrec] at h
        cases hkw : tryKeywords (t.dropWhile isSpaceChar) with
        | some q =>
          rw [hkw] at h
          obtain ⟨hq1, hq2⟩ := tryKeywords_chars _ q.1 q.2 hkw hr1
          have hg : g = t.takeWhile isSpaceChar ++ q.1 := by
            have := (Prod.mk.injEq _ _ _ _).mp ((Option.some.injEq _ _).mp h)
            exact this.1.symm
          have hrest : rest = q.2 := by
            have := (Prod.mk.injEq _ _ _ _).mp ((Option.some.injEq _ _).mp h)
            exact this.2.symm
          constructor
          · rw [hg]
            intro ch hch
            rcases List.mem_append.mp hch with hch | hch
            · exact hsfix ch hch
            · exact hq1 ch hch
          · rw [hrest]
            exact hq2
        | none =>
          rw [hkw] at h
          exact absurd h (by simp)

/-- An anchored regex match consumes lowercase-fixed characters and leaves a
lowercase-fixed remainder. -/
theorem matchAt_chars (t g rest : List Char)
    (h : matchAt t = some (g, rest)) (hT : ∀ ch ∈ t, ch.toLower = ch) :
    (∀ ch ∈ g, ch.toLower = ch) ∧ (∀ ch ∈ rest, ch.toLower = ch) := by
  unfold matchAt at h
  dsimp only at h
  by_cases hw : (t.takeWhile isWordChar).isEmpty = true
  · rw [if_pos hw] at h
    exact absurd h (by simp)
  · rw [if_neg hw] at h
    have hw0 : ∀ ch ∈ t.takeWhile isWordChar, ch.toLower = ch :=
      fun ch hch => hT ch ((List.takeWhile_sublist _).subset hch)
    have hr : ∀ ch ∈ t.dropWhile isWordChar, ch.toLower = ch :=
      fun ch hch => hT ch ((List.dropWhile_sublist _).subset hch)
    cases hmt : matchTail (t.dropWhile isWordChar).length (t.dropWhile isWordChar) with
    | some p =>
      rw [hmt] at h
      obtain ⟨hp1, hp2⟩ := matchTail_chars _ _ p.1 p.2 hmt hr
      have hg : g = t.takeWhile isWordChar ++ p.1 := by
        have := (Prod.mk.injEq _ _ _ _).mp ((Option.some.injEq _ _).mp h)
        exact this.1.symm
      have hrest : rest = p.2 := by
        have := (Prod.mk.injEq _ _ _ _).mp ((Option.some.injEq _ _).mp h)
        exact this.2.symm
      constructor
      · rw [hg]
        intro ch hch
        rcases List.mem_append.mp hch with hch | hch
        · exact hw0 ch hch
        · exact hp1 ch hch
      · rw [hrest]
        exact hp2
    | none =>
      rw [hmt] at h
      exact absurd h (by simp)

/-- Every group the scanner reports over a lowercase-fixed text consists of
lowercase-fixed characters. -/
theorem scanMatches_chars : ∀ (fuel : Nat) (t : List Char),
    (∀ ch ∈ t, ch.toLower = ch) →
    ∀ g ∈ scanMatches fuel t, ∀ ch ∈ g, ch.toLower = ch := by
  intro fuel
  induction fuel with
  | zero =>
    intro t _ g hg
    exact absurd hg (by simp [scanMatches])
  | succ fuel ih =>
    intro t hT g hg
    cases t with
    | nil => exact absurd hg (by simp [scanMatches])
    | cons c cs =>
      unfold scanMatches at hg
      cases hma : matchAt (c :: cs) with
      | some p =>
        rw [hma] at hg
        obtain ⟨hp1, hp2⟩ := matchAt_chars _ p.1 p.2 hma hT
        rcases List.mem_cons.mp hg with hgp | hgs
        · rw [hgp]
          exact hp1
        · exact ih p.2 hp2 g hgs
      | none =>
        rw [hma] at hg
        exact ih cs (fun ch hch => hT ch (List.mem_cons_of_mem c hch)) g hg

/-- Keyword matches have their key inverted by title-casing: the key
recovers the matched group, so the display name is a function of the key. -/
theorem find_keyword_matches_name (a : String) (m : CompanyMatch)
    (hm : m ∈ find_keyword_matches a) :
    m.company_name = title_case (mkey m) := by
  obtain ⟨g, hg, hgm⟩ := List.mem_map.mp hm
  have hfix : ∀ ch ∈ g, ch.toLower = ch :=
    scanMatches_chars _ _ (lowerStr_fixed a) g hg
  have hname : m.company_name = title_case (String.mk g) := by rw [← hgm]
  have hkey : mkey m = String.mk g := by
    unfold mkey
    rw [hname]
    exact lowerStr_title_of_fixed g hfix
  rw [hkey, hname]

/-- Exact matches have their key inverted by title-casing as well, since the
known-company constants are already lowercase. -/
theorem exact_pass_name (al : String) (m : CompanyMatch)
    (hm : m ∈ exact_pass al) :
    m.company_name = title_case (mkey m) := by
  obtain ⟨c, hc, _, heq⟩ := exact_pass_mem al m hm
  have hlt : ∀ x ∈ pharma_companies, lowerStr (title_case x) = x := by decide
  have hkey : mkey m = c := by
    unfold mkey
    rw [heq]
    exact hlt c hc
  rw [hkey, heq]

/-- Raw matches with the same case-insensitive name have the same display
name. -/
theorem raw_matches_names_agree (a : String) :
    ∀ m₁ ∈ raw_matches a, ∀ m₂ ∈ raw_matches a, mkey m₁ = mkey m₂ →
      m₁.company_name = m₂.company_name := by
  intro m₁ h₁ m₂ h₂ hk
  have hname : ∀ m ∈ raw_matches a, m.company_name = title_case (mkey m) := by
    intro m hm
    rcases raw_matches_cases a m hm with hex | hkw
    · exact exact_pass_name (lowerStr a) m hex
    · exact find_keyword_matches_name a m hkw
  rw [hname m₁ h₁, hname m₂ h₂, hk]

/-- Directional half of the order-independence of the retained
(name, confidence) pairs. -/
theorem retained_pairs_mono (ms ms' : List CompanyMatch)
    (hnames : ∀ m₁ ∈ ms, ∀ m₂ ∈ ms, mkey m₁ = mkey m₂ →
      m₁.company_name = m₂.company_name)
    (hperm : ms.Perm ms') (n : String) (q : ℚ)
    (h : ∃ m ∈ dedupSortMatches ms, m.company_name = n ∧ m.confidence = q) :
    ∃ m ∈ dedupSortMatches ms', m.company_name = n ∧ m.confidence = q := by
  obtain ⟨m, hm, hn, hq⟩ := h
  have hmd : m ∈ dedupMatches ms := (dedupSortMatches_mem ms m).mp hm
  have hm_ms : m ∈ ms := dedupMatches_subset ms m hmd
  have hm_ms' : m ∈ ms' := hperm.subset hm_ms
  obtain ⟨m₂, hm₂d, hkey⟩ := dedupMatches_cover ms' m hm_ms'
  have hm₂_ms' : m₂ ∈ ms' := dedupMatches_subset ms' m₂ hm₂d
  have hm₂_ms : m₂ ∈ ms := hperm.symm.subset hm₂_ms'
  have h1 : m₂.confidence ≤ m.confidence :=
    dedupMatches_max ms m hmd m₂ hm₂_ms hkey
  have h2 : m.confidence ≤ m₂.confidence :=
    dedupMatches_max ms' m₂ hm₂d m hm_ms' hkey.symm
  have hcf : m₂.confidence = m.confidence := le_antisymm h1 h2
  have hnm : m₂.company_name = m.company_name :=
    hnames m₂ hm₂_ms m hm_ms hkey
  exact ⟨m₂, (dedupSortMatches_mem ms' m₂).mpr hm₂d,
    by rw [hnm, hn], by rw [hcf, hq]⟩

/-- C6: the sequence returned by identify_companies has pairwise distinct
case-insensitive names, is sorted by descending confidence, retains for each
name a raw match of maximal confidence and covers every raw-match name; and
the set of retained (name, confidence) pairs does not change when the raw
matches are generated in any other order. -/
theorem c6_dedup_characterization :
    (∀ a : String,
      (identify_companies a).Pairwise (fun m₁ m₂ => mkey m₁ ≠ mkey m₂) ∧
      (identify_companies a).Pairwise (fun m₁ m₂ => m₂.confidence ≤ m₁.confidence) ∧
      (∀ m ∈ identify_companies a, m ∈ raw_matches a ∧
        ∀ m' ∈ raw_matches a, mkey m' = mkey m → m'.confidence ≤ m.confidence) ∧
      (∀ m' ∈ raw_matches a, ∃ m ∈ identify_companies a, mkey m = mkey m') ∧
      (∀ ms' : List CompanyMatch, (raw_matches a).Perm ms' →
        ∀ n q, ((∃ m ∈ identify_companies a, m.company_name = n ∧ m.confidence = q) ↔
                (∃ m ∈ dedupSortMatches ms', m.company_name = n ∧ m.confidence = q)))) ∧
    (∀ ms ms' : List CompanyMatch,
      (∀ m₁ ∈ ms, ∀ m₂ ∈ ms, mkey m₁ = mkey m₂ →
        m₁.company_name = m₂.company_name) →
      ms.Perm ms' →
      ∀ n q, ((∃ m ∈ dedupSortMatches ms, m.company_name = n ∧ m.confidence = q) ↔
              (∃ m ∈ dedupSortMatches ms', m.company_name = n ∧ m.confidence = q))) := by
  have hgeneric : ∀ ms ms' : List CompanyMatch,
      (∀ m₁ ∈ ms, ∀ m₂ ∈ ms, mkey m₁ = mkey m₂ →
        m₁.company_name = m₂.company_name) →
      ms.Perm ms' →
      ∀ n q, ((∃ m ∈ dedupSortMatches ms, m.company_name = n ∧ m.confidence = q) ↔
              (∃ m ∈ dedupSortMatches ms', m.company_name = n ∧ m.confidence = q)) := by
    intro ms ms' hnames hperm n q
    have hnames' : ∀ m₁ ∈ ms', ∀ m₂ ∈ ms', mkey m₁ = mkey m₂ →
        m₁.company_name = m₂.company_name := by
      intro m₁ h₁ m₂ h₂ hk
      exact hnames m₁ (hperm.symm.subset h₁) m₂ (hperm.symm.subset h₂) hk
    exact ⟨retained_pairs_mono ms ms' hnames hperm n q,
      retained_pairs_mono ms' ms hnames' hperm.symm n q⟩
  constructor
  · intro a
    refine ⟨?_, dedupSortMatches_sorted _, ?_, ?_, ?_⟩
    · have := dedupMatches_nodup_keys (raw_matches a)
      exact ((List.perm_insertionSort matchLe _).pairwise_iff
        (fun h => h.symm)).mpr this
    · intro m hm
      have hmd : m ∈ dedupMatches (raw_matches a) :=
        (dedupSortMatches_mem _ m).mp hm
      exact ⟨dedupMatches_subset _ m hmd, dedupMatches_max _ m hmd⟩
    · intro m' hm'
      obtain ⟨m, hmd, hk⟩ := dedupMatches_cover (raw_matches a) m' hm'
      exact ⟨m, (dedupSortMatches_mem _ m).mpr hmd, hk⟩
    · intro ms' hperm n q
      exact hgeneric (raw_matches a) ms' (raw_matches_names_agree a) hperm n q
  · exact hgeneric

/-- Witness for C6: two exact matches generated in the reverse order retain
the same (name, confidence) pairs. -/
theorem c6_dedup_characterization_witness :
    ∃ m ∈ dedupSortMatches ((raw_matches "Pfizer Moderna").reverse),
      m.company_name = "Pfizer" ∧ m.confidence = 9/10 := by
  have h := ((c6_dedup_characterization.1 "Pfizer Moderna").2.2.2.2
    ((raw_matches "Pfizer Moderna").reverse)
    (List.reverse_perm _).symm "Pfizer" (9/10))
  exact h.mp ⟨⟨"Pfizer", 9/10, "exact"⟩, by decide, by decide, by decide⟩
